import Mathlib

/-!
Verification development for the hostd core: a shallow embedding of the
revision validators (rhp package, `src/internal/test/host.go`), the storage
proof segment selection (`src/host/contracts/actions.go`), and a spec-level
model of the metadata store operations whose sqlite implementation is not part
of the sources (store_sector, migrate_sectors, remove_volume).

Conventions of the embedding:
* `Currency` (a 128-bit unsigned integer in Go) is modelled as `Nat`.
  `Currency.Add` and `Currency.Sub` panic in go.sia.tech/core on 128-bit
  overflow and underflow; the model mirrors them with `cadd` and `csub`
  returning `none` there, and a validator that would panic returns
  `VResult.crash`.  (`ValidatePaymentRevision` keeps plain `+` in its two
  host-output comparisons: an expected value at or above `2 ^ 128` can
  never be matched by a 128-bit output value, so the acceptance set is
  unchanged on representable inputs.)
* Addresses, hashes and unlock-condition hashes are opaque `Nat` values;
  the code only ever compares them for equality.
* A Go function that can panic (index out of range, Sub underflow,
  Div64 quotient overflow) is modelled with an explicit `crash` result or
  an `Option` return; the panic-free paths are exactly the Go paths.
-/

/-- A Siacoin output: a currency value paid to an address
(`types.SiacoinOutput`). -/
structure SiacoinOutput where
  value : Nat
  address : Nat
deriving DecidableEq, Repr

/-- The fields of `types.FileContractRevision` (including the embedded
`types.FileContract`) that the validators read.  `unlockConditionsHash`
models the value of `UnlockConditions.UnlockHash()`, which is the only way
the code uses the unlock conditions. -/
structure Rev where
  filesize : Nat
  fileMerkleRoot : Nat
  windowStart : Nat
  windowEnd : Nat
  revisionNumber : Nat
  validProofOutputs : List SiacoinOutput
  missedProofOutputs : List SiacoinOutput
  unlockHash : Nat
  unlockConditionsHash : Nat
deriving DecidableEq, Repr

/-- Result of running a validator: success, a Go `error`, or a runtime
panic (index out of range or currency underflow). -/
inductive VResult where
  | ok
  | err (msg : String)
  | crash
deriving DecidableEq, Repr

/-- `types.MaxRevisionNumber`: the u64 sentinel marking a clearing
revision. -/
def maxRevisionNumber : Nat := 2 ^ 64 - 1

/-- Checked subtraction: `Currency.Sub` in go.sia.tech/core panics on
underflow, so the model returns `none` there. -/
def csub (a b : Nat) : Option Nat :=
  if b ≤ a then some (a - b) else none

/-- Checked addition: `Currency.Add` in go.sia.tech/core panics when the
128-bit sum overflows, so the model returns `none` there. -/
def cadd (a b : Nat) : Option Nat :=
  if a + b < 2 ^ 128 then some (a + b) else none

/-- Sum of the `Value` fields of a list of outputs (the payout loops of
`validateStdRevision` accumulate exactly this). -/
def sumValues (l : List SiacoinOutput) : Nat :=
  (l.map SiacoinOutput.value).sum

/-- Output at index `i`, defaulting to a zero output; used only to state
claims, never inside the embedded code. -/
def outAt (l : List SiacoinOutput) (i : Nat) : SiacoinOutput :=
  (l.get? i).getD ⟨0, 0⟩

/-- The `oldPayout` loop of `validateStdRevision`: left-folds
`Currency.Add` over the output values starting from `acc`, returning
`none` as soon as an addition overflows (the Go panic). -/
def sumPayout (acc : Nat) : List SiacoinOutput → Option Nat
  | [] => some acc
  | o :: os =>
    match cadd acc o.value with
    | none => none
    | some acc2 => sumPayout acc2 os

/-- The address/payout loop of `validateStdRevision`: walks the proposed
outputs and, at each index, first requires the address to match the
current output at the same index and then adds the proposed value to the
running payout with `Currency.Add`.  Indexing `current[i]` with the
proposed list longer than the current one, and an overflowing addition,
are panics in Go, modelled as `Except.error none`; an address mismatch is
`Except.error (some msg)`. -/
def stdOutputsLoop : Nat → List SiacoinOutput → List SiacoinOutput → String → Except (Option String) Nat
  | acc, [], _, _ => Except.ok acc
  | _, _ :: _, [], _ => Except.error none
  | acc, r :: rs, c :: cs, msg =>
    if r.address ≠ c.address then Except.error (some msg)
    else
      match cadd acc r.value with
      | none => Except.error none
      | some acc2 => stdOutputsLoop acc2 rs cs msg

/-- `validateStdRevision(current, revision)` from the rhp package: the
common predicate of the payment and program validators.  Note that
`oldPayout` is the sum of the *current valid* outputs and that both the
proposed valid and proposed missed sums are compared against it; every
payout accumulation uses the panicking `Currency.Add`, so an overflowing
sum crashes before any check is reported. -/
def validateStdRevision (current revision : Rev) : VResult :=
  match sumPayout 0 current.validProofOutputs with
  | none => VResult.crash
  | some oldPayout =>
  match stdOutputsLoop 0 revision.validProofOutputs current.validProofOutputs
      "valid proof output address should not change" with
  | Except.error none => VResult.crash
  | Except.error (some m) => VResult.err m
  | Except.ok validPayout =>
    match stdOutputsLoop 0 revision.missedProofOutputs current.missedProofOutputs
        "missed proof output address should not change" with
    | Except.error none => VResult.crash
    | Except.error (some m) => VResult.err m
    | Except.ok missedPayout =>
      if validPayout ≠ oldPayout then VResult.err "valid proof output sum must not change"
      else if missedPayout ≠ oldPayout then VResult.err "missed proof output sum must not change"
      else if revision.unlockHash ≠ current.unlockHash then VResult.err "unlock hash must not change"
      else if revision.unlockConditionsHash ≠ current.unlockConditionsHash then VResult.err "unlock conditions must not change"
      else if revision.revisionNumber ≤ current.revisionNumber then VResult.err "revision number must increase"
      else if revision.windowStart ≠ current.windowStart then VResult.err "window start must not change"
      else if revision.windowEnd ≠ current.windowEnd then VResult.err "window end must not change"
      else if revision.validProofOutputs.length ≠ current.validProofOutputs.length then VResult.err "valid proof outputs must not change"
      else if revision.missedProofOutputs.length ≠ current.missedProofOutputs.length then VResult.err "missed proof outputs must not change"
      else
        match revision.validProofOutputs, current.validProofOutputs with
        | [], _ => VResult.crash
        | _ :: _, [] => VResult.crash
        | rv0 :: _, cv0 :: _ =>
          if cv0.value < rv0.value then VResult.err "renter valid proof output must not increase"
          else
            match revision.missedProofOutputs, current.missedProofOutputs with
            | [], _ => VResult.crash
            | _ :: _, [] => VResult.crash
            | rm0 :: _, cm0 :: _ =>
              if cm0.value < rm0.value then VResult.err "renter missed proof output must not increase"
              else VResult.ok

/-- The per-index body of the clearing loop, walking the final valid
outputs; `current[i]` with the current list exhausted is a panic. -/
def clearingLoop : List SiacoinOutput → List SiacoinOutput → List SiacoinOutput → VResult
  | [], _, _ => VResult.ok
  | _ :: _, _, [] => VResult.crash
  | _ :: _, [], _ :: _ => VResult.crash
  | v :: vs, m :: ms, c :: cs =>
    if v.value ≠ c.value then VResult.err "valid proof output value must not change"
    else if v.address ≠ c.address then VResult.err "valid proof output address must not change"
    else if v.value ≠ m.value then VResult.err "missed proof output must equal valid proof output"
    else if v.address ≠ m.address then VResult.err "missed proof output address must equal valid proof output"
    else clearingLoop vs ms cs

/-- `ValidateClearingRevision(current, final)` from the rhp package. -/
def ValidateClearingRevision (current finalRev : Rev) : VResult :=
  if current.filesize ≠ finalRev.filesize then VResult.err "file size must not change"
  else if current.fileMerkleRoot ≠ finalRev.fileMerkleRoot then VResult.err "file merkle root must not change"
  else if current.windowStart ≠ finalRev.windowStart then VResult.err "window start must not change"
  else if current.windowEnd ≠ finalRev.windowEnd then VResult.err "window end must not change"
  else if finalRev.validProofOutputs.length ≠ finalRev.missedProofOutputs.length then VResult.err "wrong number of proof outputs"
  else if finalRev.revisionNumber ≠ maxRevisionNumber then VResult.err "revision number must be max value"
  else if finalRev.unlockHash ≠ current.unlockHash then VResult.err "unlock hash must not change"
  else if finalRev.unlockConditionsHash ≠ current.unlockConditionsHash then VResult.err "unlock conditions must not change"
  else clearingLoop finalRev.validProofOutputs finalRev.missedProofOutputs current.validProofOutputs

/-- The host settings fields read by the renewal validator
(`rhpv2.HostSettings`). -/
structure HostSettings where
  windowSize : Nat
  maxDuration : Nat
  address : Nat
  contractPrice : Nat
  maxCollateral : Nat
deriving DecidableEq, Repr

/-- The unlock hash of the 2-of-2 unlock conditions built by
`contractUnlockConditions(hostKey, renterKey)`.  The digest itself is
opaque; only its functional dependence on the two keys matters, so it is
modelled by an injective pairing. -/
def contractUnlockHash (hostKey renterKey : Nat) : Nat :=
  Nat.pair hostKey renterKey

/-- `ValidateContractRenewal` from the rhp package.  The renewal is a
`types.FileContract`; its fields coincide with the `Rev` projection used
here (the unlock-conditions hash is unused).  Indexing `[1]` and `[2]` on
the output lists, and `Sub` underflow, crash as in Go. -/
def ValidateContractRenewal (existing renewal : Rev) (hostKey renterKey : Nat)
    (renterCost hostBurn : Nat) (currentHeight : Nat) (settings : HostSettings) : VResult :=
  if renewal.revisionNumber ≠ 0 then VResult.err "revision number must be zero"
  else if renewal.filesize ≠ existing.filesize then VResult.err "filesize must not change"
  else if renewal.fileMerkleRoot ≠ existing.fileMerkleRoot then VResult.err "file Merkle root must not change"
  else if renewal.windowEnd < existing.windowEnd then VResult.err "renewal window must not end before current window"
  else if renewal.windowStart < currentHeight + settings.windowSize then VResult.err "contract ends too soon to safely submit the contract transaction"
  else if renewal.windowStart > currentHeight + settings.maxDuration then VResult.err "contract duration is too long"
  else if renewal.windowEnd < renewal.windowStart + settings.windowSize then VResult.err "proof window is too small"
  else
    match renewal.validProofOutputs.get? 1 with
    | none => VResult.crash
    | some v1 =>
      if v1.address ≠ settings.address then VResult.err "wrong address for host output"
      else if v1.value < renterCost then VResult.err "insufficient initial host valid payout"
      else
        match renewal.missedProofOutputs.get? 1 with
        | none => VResult.crash
        | some m1 =>
          if m1.value < renterCost then VResult.err "insufficient initial host missed payout"
          else
            match csub v1.value renterCost with
            | none => VResult.crash
            | some collat =>
              if settings.maxCollateral < collat then VResult.err "excessive initial collateral"
              else if m1.value < v1.value then VResult.err "host valid payout must be greater than host missed payout"
              else
                match renewal.missedProofOutputs.get? 2 with
                | none => VResult.crash
                | some m2 =>
                  if m2.value < hostBurn then VResult.err "excessive initial void output"
                  else
                    match csub v1.value hostBurn with
                    | none => VResult.crash
                    | some minMissed =>
                      if m1.value < minMissed then VResult.err "insufficient host missed payout"
                      else if renewal.unlockHash ≠ contractUnlockHash hostKey renterKey then VResult.err "incorrect unlock hash"
                      else VResult.ok

/-- `ValidatePaymentRevision(current, revision, payment)` from the rhp
package: `validateStdRevision` followed by the four exact-transfer
checks.  The `[0]` accesses cannot be out of range once the std predicate
passed, but the `[1]` accesses can, and the two `Sub` calls can
underflow; both are crashes. -/
def ValidatePaymentRevision (current revision : Rev) (payment : Nat) : VResult :=
  match validateStdRevision current revision with
  | VResult.err m => VResult.err m
  | VResult.crash => VResult.crash
  | VResult.ok =>
    match revision.validProofOutputs, current.validProofOutputs with
    | rv0 :: rvs, cv0 :: cvs =>
      match csub cv0.value payment with
      | none => VResult.crash
      | some d0 =>
        if rv0.value ≠ d0 then VResult.err "renter valid proof output is not reduced by the payment amount"
        else
          match revision.missedProofOutputs, current.missedProofOutputs with
          | rm0 :: rms, cm0 :: cms =>
            match csub cm0.value payment with
            | none => VResult.crash
            | some d1 =>
              if rm0.value ≠ d1 then VResult.err "renter missed proof output is not reduced by the payment amount"
              else
                match rvs, cvs with
                | rv1 :: _, cv1 :: _ =>
                  if rv1.value ≠ cv1.value + payment then VResult.err "host valid proof output is not increased by the payment amount"
                  else
                    match rms, cms with
                    | rm1 :: _, cm1 :: _ =>
                      if rm1.value ≠ cm1.value + payment then VResult.err "host missed proof output is not increased by the payment amount"
                      else VResult.ok
                    | _, _ => VResult.crash
                | _, _ => VResult.crash
          | _, _ => VResult.crash
    | _, _ => VResult.crash

/-- `merkle.LeafSize`: the 64-byte leaf size of the sector Merkle tree. -/
def leafSize : Nat := 64

/-- `binary.BigEndian.Uint64(seed[off:])`: the big-endian 64-bit word made
of bytes `off .. off+7` of the digest. -/
def beUint64 (seed : List Nat) (off : Nat) : Nat :=
  (List.range 8).foldl (fun acc j => acc * 256 + seed.getD (off + j) 0) 0

/-- The remainder returned by `bits.Div64(hi, lo, y)`, which panics when
`y = 0` or `y ≤ hi` (quotient overflow); the panic is `none`. -/
def div64rem (hi lo y : Nat) : Option Nat :=
  if y = 0 ∨ y ≤ hi then none else some ((hi * 2 ^ 64 + lo) % y)

/-- `numSegments` as computed by `storageProofSegment`:
`filesize / LeafSize`, plus one if the division has a remainder -
that is, `ceil(filesize / 64)`. -/
def numSegments (filesize : Nat) : Nat :=
  filesize / leafSize + (if filesize % leafSize ≠ 0 then 1 else 0)

/-- The 256-bit digest read as a big-endian integer from its four 8-byte
groups. -/
def beInt256 (seed : List Nat) : Nat :=
  ((beUint64 seed 0 * 2 ^ 64 + beUint64 seed 8) * 2 ^ 64 + beUint64 seed 16) * 2 ^ 64
    + beUint64 seed 24

/-- `storageProofSegment(bid, fcid, filesize)` from
`src/host/contracts/actions.go`.  The BLAKE2b-256 digest is abstracted as
a function `blake` from the concatenated id bytes to the 32 digest bytes;
the reduction loop keeps only the running `Div64` remainder. -/
def storageProofSegment (blake : List Nat → List Nat) (bid fcid : List Nat)
    (filesize : Nat) : Option Nat :=
  if filesize = 0 then some 0
  else
    let seed := blake (bid ++ fcid)
    let n := numSegments filesize
    (div64rem 0 (beUint64 seed 0) n).bind fun r0 =>
      (div64rem r0 (beUint64 seed 8) n).bind fun r1 =>
        (div64rem r1 (beUint64 seed 16) n).bind fun r2 =>
          div64rem r2 (beUint64 seed 24) n

/-- Modelled from the spec: a volume of the metadata store (the sqlite
implementation of the store is not part of the sources).  Mirrors §3 of
the spec: id, read-only and available flags, and an array of sector
slots each holding an optional sector root (roots are opaque `Nat`). -/
structure Volume where
  vid : Nat
  readOnly : Bool
  available : Bool
  slots : List (Option Nat)
deriving DecidableEq, Repr

/-- Modelled from the spec: the state of the metadata store restricted to
what the volume operations touch - the ordered list of volumes. -/
structure StoreState where
  volumes : List Volume
deriving DecidableEq, Repr

/-- Modelled from the spec: the error kinds of §7 used by the volume
operations. -/
inductive StoreError where
  | notEnoughStorage
  | volumeNotEmpty
  | volumeNotFound
deriving DecidableEq, Repr

/-- The roots held by a slot list, in slot order. -/
def rootsOf (slots : List (Option Nat)) : List Nat :=
  slots.filterMap id

/-- `used_sectors` of a volume: the number of slots holding a root. -/
def usedSectors (v : Volume) : Nat :=
  (rootsOf v.slots).length

/-- All roots stored in a list of volumes, in volume order. -/
def rootsL : List Volume → List Nat
  | [] => []
  | v :: vs => rootsOf v.slots ++ rootsL vs

/-- Total used sectors across the store. -/
def totalUsed (st : StoreState) : Nat :=
  (rootsL st.volumes).length

/-- Index of the first slot holding `root`. -/
def findRootIdx : List (Option Nat) → Nat → Option Nat
  | [], _ => none
  | s :: rest, root =>
    if s = some root then some 0 else (findRootIdx rest root).map (· + 1)

/-- Index of the first empty slot. -/
def firstNoneIdx : List (Option Nat) → Option Nat
  | [] => none
  | none :: _ => some 0
  | some _ :: rest => (firstNoneIdx rest).map (· + 1)

/-- Index of the first empty slot strictly below `bound`. -/
def firstNoneIdxBelow : List (Option Nat) → Nat → Option Nat
  | [], _ => none
  | _ :: _, 0 => none
  | none :: _, _ + 1 => some 0
  | some _ :: rest, b + 1 => (firstNoneIdxBelow rest b).map (· + 1)

/-- Location `(volume id, slot index)` of the first slot holding `root`,
scanning volumes in order. -/
def findRoot : List Volume → Nat → Option (Nat × Nat)
  | [], _ => none
  | v :: vs, root =>
    match findRootIdx v.slots root with
    | some i => some (v.vid, i)
    | none => findRoot vs root

/-- Modelled from the spec: the first-fit placement policy of
`store_sector` - the lowest `(volume, index)` empty slot among available,
writable volumes.  Returns the updated volume list and the location. -/
def placeRoot : List Volume → Nat → Option (List Volume × Nat × Nat)
  | [], _ => none
  | v :: vs, root =>
    if v.available && !v.readOnly then
      match firstNoneIdx v.slots with
      | some i => some ({ v with slots := v.slots.set i (some root) } :: vs, v.vid, i)
      | none => (placeRoot vs root).map fun r => (v :: r.1, r.2.1, r.2.2)
    else (placeRoot vs root).map fun r => (v :: r.1, r.2.1, r.2.2)

/-- Modelled from the spec: `store_sector(root)` (§4.2).  If a slot
already holds `root` its location is returned with `exists = true` and
nothing is allocated; otherwise the root is placed in the first available
writable empty slot; with no free slot the call fails with
`NotEnoughStorage`.  The `on_placed` callback only performs physical I/O
and is elided.  Returns the new state, the location and the
`exists` flag. -/
def storeSector (st : StoreState) (root : Nat) :
    Except StoreError (StoreState × (Nat × Nat) × Bool) :=
  match findRoot st.volumes root with
  | some loc => Except.ok (st, loc, true)
  | none =>
    match placeRoot st.volumes root with
    | some (vols, vid, idx) => Except.ok (⟨vols⟩, (vid, idx), false)
    | none => Except.error StoreError.notEnoughStorage

/-- Slot contents at list position `p`, slot index `i`. -/
def getSlotPos : List Volume → Nat → Nat → Option (Option Nat)
  | [], _, _ => none
  | v :: _, 0, i => v.slots.get? i
  | _ :: vs, p + 1, i => getSlotPos vs p i

/-- Write `val` into the slot at list position `p`, index `i`. -/
def setSlotPos : List Volume → Nat → Nat → Option Nat → List Volume
  | [], _, _, _ => []
  | v :: vs, 0, i, val => { v with slots := v.slots.set i val } :: vs
  | v :: vs, p + 1, i, val => v :: setSlotPos vs p i val

/-- Decrement an optional position: tracks where the source volume sits
relative to the suffix currently scanned. -/
def decPos : Option Nat → Option Nat
  | some (n + 1) => some n
  | _ => none

/-- Modelled from the spec: the destination search of `migrate_sectors` -
the first empty slot in an available writable volume, except that inside
the source volume (position `srcPos`) only slots below `below` qualify.
Returns `(list position, slot index)`. -/
def freeDestSlot : List Volume → Option Nat → Nat → Option (Nat × Nat)
  | [], _, _ => none
  | v :: vs, srcPos, below =>
    if v.available && !v.readOnly then
      match (if srcPos = some 0 then firstNoneIdxBelow v.slots below else firstNoneIdx v.slots) with
      | some i => some (0, i)
      | none => (freeDestSlot vs (decPos srcPos) below).map fun r => (r.1 + 1, r.2)
    else (freeDestSlot vs (decPos srcPos) below).map fun r => (r.1 + 1, r.2)

/-- Modelled from the spec: the batch loop of `migrate_sectors`: move the
pending source slots one at a time, committing each successful move, and
stop with `NotEnoughStorage` when no destination is free.  The `on_batch`
callback only performs physical I/O and is elided. -/
def migrateLoop : List Volume → Nat → Nat → List Nat → List Volume × Option StoreError
  | vols, _, _, [] => (vols, none)
  | vols, srcPos, below, idx :: rest =>
    match getSlotPos vols srcPos idx with
    | some (some root) =>
      match freeDestSlot vols (some srcPos) below with
      | some (dp, di) =>
        migrateLoop (setSlotPos (setSlotPos vols srcPos idx none) dp di (some root)) srcPos below rest
      | none => (vols, some StoreError.notEnoughStorage)
    | _ => migrateLoop vols srcPos below rest

/-- Position of the first volume with id `vid`. -/
def findVolPos : List Volume → Nat → Option Nat
  | [], _ => none
  | v :: vs, vid =>
    if v.vid = vid then some 0 else (findVolPos vs vid).map (· + 1)

/-- Modelled from the spec: `migrate_sectors(volume_id, below_index)`
(§4.2): selects the occupied slots of the volume at indices `≥
below_index` and moves each to a fresh destination slot elsewhere, or in
the same volume below `below_index`; on destination exhaustion the moves
already made stay committed and the call reports `NotEnoughStorage`. -/
def migrateSectors (st : StoreState) (vid below : Nat) : StoreState × Option StoreError :=
  match findVolPos st.volumes vid with
  | none => (st, some StoreError.volumeNotFound)
  | some srcPos =>
    match st.volumes.get? srcPos with
    | none => (st, some StoreError.volumeNotFound)
    | some v =>
      let pending := (List.range v.slots.length).filter fun i =>
        decide (below ≤ i) && (v.slots.getD i none).isSome
      let r := migrateLoop st.volumes srcPos below pending
      (⟨r.1⟩, r.2)

/-- First volume with id `vid`. -/
def findVolByVid : List Volume → Nat → Option Volume
  | [], _ => none
  | v :: vs, vid => if v.vid = vid then some v else findVolByVid vs vid

/-- Remove the first volume with id `vid` from the list. -/
def removeVolByVid : List Volume → Nat → List Volume
  | [], _ => []
  | v :: vs, vid => if v.vid = vid then vs else v :: removeVolByVid vs vid

/-- Modelled from the spec: `remove_volume(id, force)` (§4.2, §7):
with `force = false` the volume must be empty (`used_sectors = 0`),
otherwise the call fails with `VolumeNotEmpty` and the state is
unchanged. -/
def removeVolume (st : StoreState) (vid : Nat) (force : Bool) :
    StoreState × Option StoreError :=
  match findVolByVid st.volumes vid with
  | none => (st, some StoreError.volumeNotFound)
  | some v =>
    if force = false ∧ usedSectors v ≠ 0 then (st, some StoreError.volumeNotEmpty)
    else (⟨removeVolByVid st.volumes vid⟩, none)

/-- A current revision whose missed-output sum (5) differs from its
valid-output sum (10); used to probe the payout-sum checks. -/
def c1cur : Rev := ⟨0, 0, 0, 0, 0, [⟨10, 0⟩, ⟨0, 1⟩], [⟨5, 0⟩, ⟨0, 1⟩], 0, 0⟩

/-- A proposal over `c1cur` that keeps the valid outputs and rebalances
the missed outputs to sum to the *valid* sum of `c1cur`. -/
def c1rev : Rev := ⟨0, 0, 0, 0, 1, [⟨10, 0⟩, ⟨0, 1⟩], [⟨5, 0⟩, ⟨5, 1⟩], 0, 0⟩

/-- Host settings for the renewal probe: window size 1, max duration 10,
host address 7, contract price 0, max collateral 100. -/
def c2settings : HostSettings := ⟨1, 10, 7, 0, 100⟩

/-- An existing revision for the renewal probe. -/
def c2existing : Rev := ⟨0, 0, 0, 10, 0, [], [], 0, 0⟩

/-- A renewal whose host missed payout (10) exceeds its host valid
payout (5); its unlock hash matches `contractUnlockHash 0 0 = 0`. -/
def c2renewal : Rev := ⟨0, 0, 5, 10, 0, [⟨0, 0⟩, ⟨5, 7⟩], [⟨0, 0⟩, ⟨10, 7⟩, ⟨0, 9⟩], 0, 0⟩

/-- A current revision for the clearing probe. -/
def c3cur : Rev := ⟨0, 0, 1, 2, 5, [⟨5, 0⟩], [⟨5, 0⟩], 3, 4⟩

/-- A final revision that keeps every output value and sets missed equal
to valid, but moves the output address from 0 to 1. -/
def c3fin : Rev := ⟨0, 0, 1, 2, maxRevisionNumber, [⟨5, 1⟩], [⟨5, 1⟩], 3, 4⟩

/-- A current revision with revision number 0 and matching payout sums. -/
def c4cur : Rev := ⟨0, 0, 0, 0, 0, [⟨10, 0⟩, ⟨0, 1⟩], [⟨10, 2⟩, ⟨0, 1⟩], 0, 0⟩

/-- A proposal over `c4cur` that only raises the revision number to the
`u64::MAX` sentinel. -/
def c4rev : Rev := ⟨0, 0, 0, 0, maxRevisionNumber, [⟨10, 0⟩, ⟨0, 1⟩], [⟨10, 2⟩, ⟨0, 1⟩], 0, 0⟩

/-- A current revision already at the sentinel revision number. -/
def c4wcur : Rev := ⟨0, 0, 0, 0, maxRevisionNumber, [⟨1, 0⟩], [⟨1, 0⟩], 0, 0⟩

/-- A proposal at the sentinel revision number over `c4wcur`. -/
def c4wrev : Rev := ⟨0, 0, 0, 0, maxRevisionNumber, [⟨1, 0⟩], [⟨1, 0⟩], 0, 0⟩

/-- A digest function returning an all-zero 32-byte digest, standing in
for BLAKE2b-256 on a concrete evaluation. -/
def constDigest : List Nat → List Nat := fun _ => List.replicate 32 0

/-- A store with one available writable volume holding one empty slot. -/
def w7st : StoreState := ⟨[⟨1, false, true, [none]⟩]⟩

/-- The same store after root 7 is placed in the single slot. -/
def w7st1 : StoreState := ⟨[⟨1, false, true, [some 7]⟩]⟩

/-- A volume with one occupied slot, used to probe volume removal. -/
def r9vol : Volume := ⟨1, false, true, [some 4]⟩

/-- A store containing only `r9vol`. -/
def r9st : StoreState := ⟨[r9vol]⟩

/-- A current revision with empty output lists. -/
def c10cur : Rev := ⟨0, 0, 0, 0, 0, [], [], 0, 0⟩

/-- A proposal whose valid output list is longer than the current one,
driving the address loop out of bounds. -/
def c10rev : Rev := ⟨0, 0, 0, 0, 1, [⟨0, 0⟩], [], 0, 0⟩

/-- A benign current revision with one output in each list. -/
def c10wcur : Rev := ⟨0, 0, 0, 0, 0, [⟨1, 0⟩], [⟨1, 0⟩], 0, 0⟩

/-- A benign proposal over `c10wcur` with list lengths within bounds. -/
def c10wrev : Rev := ⟨0, 0, 0, 0, 1, [⟨1, 0⟩], [⟨1, 0⟩], 0, 0⟩

theorem sumValues_nil : sumValues [] = 0 := rfl

theorem sumValues_cons (r : SiacoinOutput) (rs : List SiacoinOutput) :
    sumValues (r :: rs) = r.value + sumValues rs := by
  simp [sumValues]

theorem outAt_cons_zero (r : SiacoinOutput) (rs : List SiacoinOutput) :
    outAt (r :: rs) 0 = r := rfl

theorem outAt_cons_succ (r : SiacoinOutput) (rs : List SiacoinOutput) (i : Nat) :
    outAt (r :: rs) (i + 1) = outAt rs i := rfl

theorem csub_eq_some {a b d : Nat} : csub a b = some d ↔ b ≤ a ∧ d = a - b := by
  unfold csub
  by_cases h : b ≤ a <;> simp [h]
  exact eq_comm

theorem cadd_eq_some {a b c : Nat} : cadd a b = some c ↔ a + b < 2 ^ 128 ∧ c = a + b := by
  constructor
  · intro hc
    unfold cadd at hc
    split_ifs at hc with h
    simp only [Option.some.injEq] at hc
    exact ⟨h, hc.symm⟩
  · rintro ⟨h, rfl⟩
    unfold cadd
    rw [if_pos h]

theorem sumPayout_ok : ∀ (l : List SiacoinOutput) (acc s : Nat),
    sumPayout acc l = some s → s = acc + sumValues l := by
  intro l
  induction l with
  | nil =>
    intro acc s h
    simp only [sumPayout, Option.some.injEq] at h
    simp [sumValues, ← h]
  | cons o os ih =>
    intro acc s h
    simp only [sumPayout] at h
    cases hc : cadd acc o.value with
    | none => rw [hc] at h; exact Option.noConfusion h
    | some acc2 =>
      rw [hc] at h
      obtain ⟨hb, hacc⟩ := cadd_eq_some.mp hc
      have hrec := ih acc2 s h
      rw [sumValues_cons]
      omega

theorem sumPayout_of_lt : ∀ (l : List SiacoinOutput) (acc : Nat),
    acc + sumValues l < 2 ^ 128 → sumPayout acc l = some (acc + sumValues l) := by
  intro l
  induction l with
  | nil => intro acc h; simp [sumPayout, sumValues]
  | cons o os ih =>
    intro acc h
    rw [sumValues_cons] at h
    simp only [sumPayout]
    rw [show cadd acc o.value = some (acc + o.value) from cadd_eq_some.mpr ⟨by omega, rfl⟩]
    show sumPayout (acc + o.value) os = some (acc + sumValues (o :: os))
    rw [ih (acc + o.value) (by omega)]
    rw [sumValues_cons]
    congr 1
    omega

theorem stdOutputsLoop_ok_sum : ∀ (rs cs : List SiacoinOutput) (msg : String) (acc s : Nat),
    stdOutputsLoop acc rs cs msg = Except.ok s → s = acc + sumValues rs := by
  intro rs
  induction rs with
  | nil =>
    intro cs msg acc s h
    simp only [stdOutputsLoop, Except.ok.injEq] at h
    simp [sumValues, ← h]
  | cons r rt ih =>
    intro cs msg acc s h
    cases cs with
    | nil => simp [stdOutputsLoop] at h
    | cons c ct =>
      simp only [stdOutputsLoop] at h
      by_cases ha : r.address ≠ c.address
      · simp [ha] at h
      · simp only [ha, if_false] at h
        cases hc : cadd acc r.value with
        | none => rw [hc] at h; simp at h
        | some acc2 =>
          rw [hc] at h
          obtain ⟨hb, hacc⟩ := cadd_eq_some.mp hc
          have hrec := ih ct msg acc2 s h
          rw [sumValues_cons]
          omega

theorem stdOutputsLoop_no_crash : ∀ (rs cs : List SiacoinOutput) (msg : String) (acc : Nat),
    rs.length ≤ cs.length → acc + sumValues rs < 2 ^ 128 →
    stdOutputsLoop acc rs cs msg ≠ Except.error none := by
  intro rs
  induction rs with
  | nil => intro cs msg acc _ _ h; simp [stdOutputsLoop] at h
  | cons r rt ih =>
    intro cs msg acc hlen hsum h
    cases cs with
    | nil => simp at hlen
    | cons c ct =>
      rw [sumValues_cons] at hsum
      simp only [stdOutputsLoop] at h
      by_cases ha : r.address ≠ c.address
      · simp [ha] at h
      · simp only [ha, if_false] at h
        rw [show cadd acc r.value = some (acc + r.value) from
          cadd_eq_some.mpr ⟨by omega, rfl⟩] at h
        exact ih ct msg (acc + r.value) (by simpa using hlen) (by omega) h

set_option maxHeartbeats 1600000 in
theorem validateStd_ok_inv (cur rev : Rev) (h : validateStdRevision cur rev = VResult.ok) :
    sumValues rev.validProofOutputs = sumValues cur.validProofOutputs ∧
    sumValues rev.missedProofOutputs = sumValues cur.validProofOutputs ∧
    cur.revisionNumber < rev.revisionNumber ∧
    rev.validProofOutputs.length = cur.validProofOutputs.length ∧
    rev.missedProofOutputs.length = cur.missedProofOutputs.length := by
  simp only [validateStdRevision] at h
  split at h <;> try exact VResult.noConfusion h
  rename_i oldPayout hold
  split at h <;> try exact VResult.noConfusion h
  rename_i validPayout hv
  split at h <;> try exact VResult.noConfusion h
  rename_i missedPayout hm
  split_ifs at h with h1 h2 h3 h4 h5 h6 h7 h8 h9 <;> try exact VResult.noConfusion h
  have hs1 : validPayout = 0 + sumValues rev.validProofOutputs :=
    stdOutputsLoop_ok_sum _ _ _ _ _ hv
  have hs2 : missedPayout = 0 + sumValues rev.missedProofOutputs :=
    stdOutputsLoop_ok_sum _ _ _ _ _ hm
  have hso : oldPayout = 0 + sumValues cur.validProofOutputs :=
    sumPayout_ok _ _ _ hold
  rw [not_not] at h1 h2 h8 h9
  exact ⟨by omega, by omega, by omega, h8, h9⟩

set_option maxHeartbeats 1600000 in
/-- Claim C10 (amended): `validateStdRevision` is panic-free whenever
each proposed output list is no longer than the corresponding current
list, both current lists are non-empty, and the three payout sums the
loops accumulate (current valid, proposed valid, proposed missed) stay
below `2 ^ 128` so that no `Currency.Add` overflows; outside these
bounds the Go code indexes out of range (see the counterexample) or
panics in `Add`. -/
theorem validateStdRevision_total_on_bounded (cur rev : Rev)
    (h1 : rev.validProofOutputs.length ≤ cur.validProofOutputs.length)
    (h2 : rev.missedProofOutputs.length ≤ cur.missedProofOutputs.length)
    (h3 : 0 < cur.validProofOutputs.length)
    (h4 : 0 < cur.missedProofOutputs.length)
    (h5 : sumValues cur.validProofOutputs < 2 ^ 128)
    (h6 : sumValues rev.validProofOutputs < 2 ^ 128)
    (h7 : sumValues rev.missedProofOutputs < 2 ^ 128) :
    validateStdRevision cur rev ≠ VResult.crash := by
  intro h
  simp only [validateStdRevision] at h
  split at h <;> try exact VResult.noConfusion h
  case _ heq =>
    rw [sumPayout_of_lt cur.validProofOutputs 0 (by omega)] at heq
    exact Option.noConfusion heq
  case _ =>
    split at h <;> try exact VResult.noConfusion h
    case _ heq => exact stdOutputsLoop_no_crash _ _ _ 0 h1 (by omega) heq
    case _ =>
      split at h <;> try exact VResult.noConfusion h
      case _ heq => exact stdOutputsLoop_no_crash _ _ _ 0 h2 (by omega) heq
      case _ =>
      split_ifs at h with g1 g2 g3 g4 g5 g6 g7 g8 g9 <;> try exact VResult.noConfusion h
      rw [not_not] at g8 g9
      split at h <;> try exact VResult.noConfusion h
      · rename_i heqa
        rw [heqa] at g8
        simp at g8
        omega
      · rename_i heqb
        rw [heqb] at h3
        simp at h3
      · split_ifs at h with g10 <;> try exact VResult.noConfusion h
        split at h <;> try exact VResult.noConfusion h
        · rename_i heqc
          rw [heqc] at g9
          simp at g9
          omega
        · rename_i heqd
          rw [heqd] at h4
          simp at h4
        · split_ifs at h with g11 <;> exact VResult.noConfusion h

/-- The acceptance condition claimed for `ValidatePaymentRevision`: the
std predicate passes, the renter outputs (index 0) each decreased by
exactly `payment`, and the host outputs (index 1 - which must exist)
each increased by exactly `payment`. -/
def paymentClaimCond (current revision : Rev) (payment : Nat) : Prop :=
  validateStdRevision current revision = VResult.ok ∧
  2 ≤ revision.validProofOutputs.length ∧
  2 ≤ revision.missedProofOutputs.length ∧
  (outAt current.validProofOutputs 0).value = (outAt revision.validProofOutputs 0).value + payment ∧
  (outAt current.missedProofOutputs 0).value = (outAt revision.missedProofOutputs 0).value + payment ∧
  (outAt revision.validProofOutputs 1).value = (outAt current.validProofOutputs 1).value + payment ∧
  (outAt revision.missedProofOutputs 1).value = (outAt current.missedProofOutputs 1).value + payment

set_option maxHeartbeats 1600000 in
/-- Claim C5 (confirmed): `ValidatePaymentRevision` accepts
`(current, revision, payment)` exactly when `validateStdRevision` accepts
the pair and the renter valid and missed outputs (index 0) each decreased
by exactly `payment` while the host valid and missed outputs (index 1)
each increased by exactly `payment`. -/
theorem ValidatePaymentRevision_ok_iff (current revision : Rev) (payment : Nat) :
    ValidatePaymentRevision current revision payment = VResult.ok ↔
      paymentClaimCond current revision payment := by
  constructor
  · intro h
    simp only [ValidatePaymentRevision] at h
    split at h <;> try exact VResult.noConfusion h
    rename_i hstd
    split at h <;> try exact VResult.noConfusion h
    rename_i rv0 rvs cv0 cvs hrv hcv
    split at h <;> try exact VResult.noConfusion h
    rename_i d0 hd0
    split_ifs at h with q1 <;> try exact VResult.noConfusion h
    split at h <;> try exact VResult.noConfusion h
    rename_i rm0 rms cm0 cms hrm hcm
    split at h <;> try exact VResult.noConfusion h
    rename_i d1 hd1
    split_ifs at h with q2 <;> try exact VResult.noConfusion h
    split at h <;> try exact VResult.noConfusion h
    rename_i rv1 rvt cv1 cvt hrvs hcvs
    split_ifs at h with q3 <;> try exact VResult.noConfusion h
    split at h <;> try exact VResult.noConfusion h
    rename_i rm1 rmt cm1 cmt hrms hcms
    split_ifs at h with q4 <;> try exact VResult.noConfusion h
    rw [not_not] at q1 q2 q3 q4
    obtain ⟨hp0, hd0e⟩ := csub_eq_some.mp hd0
    obtain ⟨hp1, hd1e⟩ := csub_eq_some.mp hd1
    refine ⟨hstd, ?_, ?_, ?_, ?_, ?_, ?_⟩ <;>
      simp_all only [outAt_cons_zero, outAt_cons_succ, List.length_cons] <;> omega
  · rintro ⟨hstd, hl1, hl2, e1, e2, e3, e4⟩
    obtain ⟨-, -, -, hlen1, hlen2⟩ := validateStd_ok_inv current revision hstd
    rcases hrv : revision.validProofOutputs with _ | ⟨rv0, _ | ⟨rv1, rvt⟩⟩ <;>
      rw [hrv] at hl1 <;> try simp at hl1
    rcases hrm : revision.missedProofOutputs with _ | ⟨rm0, _ | ⟨rm1, rmt⟩⟩ <;>
      rw [hrm] at hl2 <;> try simp at hl2
    rw [hrv] at hlen1
    rw [hrm] at hlen2
    rcases hcv : current.validProofOutputs with _ | ⟨cv0, _ | ⟨cv1, cvt⟩⟩ <;>
      rw [hcv] at hlen1 <;> try simp at hlen1
    rcases hcm : current.missedProofOutputs with _ | ⟨cm0, _ | ⟨cm1, cmt⟩⟩ <;>
      rw [hcm] at hlen2 <;> try simp at hlen2
    simp only [hrv, hrm, hcv, hcm, outAt_cons_zero, outAt_cons_succ] at e1 e2 e3 e4
    have d0e : csub cv0.value payment = some rv0.value :=
      csub_eq_some.mpr ⟨by omega, by omega⟩
    have d1e : csub cm0.value payment = some rm0.value :=
      csub_eq_some.mpr ⟨by omega, by omega⟩
    simp only [ValidatePaymentRevision, hstd, hrv, hrm, hcv, hcm, d0e, d1e]
    rw [if_neg (by omega), if_neg (by omega), if_neg (by omega), if_neg (by omega)]

theorem clearingLoop_ok_iff : ∀ (vs ms cs : List SiacoinOutput),
    clearingLoop vs ms cs = VResult.ok ↔
      (vs.length ≤ ms.length ∧ vs.length ≤ cs.length ∧
        ∀ i, i < vs.length →
          (outAt vs i).value = (outAt cs i).value ∧
          (outAt vs i).address = (outAt cs i).address ∧
          outAt ms i = outAt vs i) := by
  intro vs
  induction vs with
  | nil =>
    intro ms cs
    simp [clearingLoop]
  | cons v vt ih =>
    intro ms cs
    cases cs with
    | nil =>
      constructor
      · intro h
        cases ms <;> exact VResult.noConfusion h
      · rintro ⟨-, h2, -⟩
        simp at h2
    | cons c ct =>
      cases ms with
      | nil =>
        constructor
        · intro h
          exact VResult.noConfusion h
        · rintro ⟨h1, -, -⟩
          simp at h1
      | cons m mt =>
        simp only [clearingLoop]
        constructor
        · intro h
          split_ifs at h with g1 g2 g3 g4 <;> try exact VResult.noConfusion h
          rw [not_not] at g1 g2 g3 g4
          obtain ⟨k1, k2, k3⟩ := (ih mt ct).mp h
          refine ⟨by simpa using k1, by simpa using k2, ?_⟩
          intro i hi
          cases i with
          | zero =>
            simp only [outAt_cons_zero]
            refine ⟨g1, g2, ?_⟩
            have : m = ⟨m.value, m.address⟩ := rfl
            rw [this, ← g3, ← g4]
          | succ j =>
            simp only [outAt_cons_succ]
            exact k3 j (by simpa using hi)
        · rintro ⟨h1, h2, h3⟩
          obtain ⟨g1, g2, g3⟩ := h3 0 (by simp)
          simp only [outAt_cons_zero] at g1 g2 g3
          rw [if_neg (not_not_intro g1), if_neg (not_not_intro g2)]
          rw [if_neg (by rw [g3]; simp), if_neg (by rw [g3]; simp)]
          refine (ih mt ct).mpr ⟨by simpa using h1, by simpa using h2, ?_⟩
          intro j hj
          have := h3 (j + 1) (by simpa using hj)
          simpa only [outAt_cons_succ] using this

/-- The acceptance condition that `ValidateClearingRevision` actually
implements: scalar fields unchanged, the final revision's two output
lists of equal length (but not compared with the current lengths),
revision number at the sentinel, and for every index of the final value
list a value *and address* match with the current valid output together
with missed = valid. -/
def clearingCodeCond (current finalRev : Rev) : Prop :=
  current.filesize = finalRev.filesize ∧
  current.fileMerkleRoot = finalRev.fileMerkleRoot ∧
  current.windowStart = finalRev.windowStart ∧
  current.windowEnd = finalRev.windowEnd ∧
  finalRev.validProofOutputs.length = finalRev.missedProofOutputs.length ∧
  finalRev.revisionNumber = maxRevisionNumber ∧
  finalRev.unlockHash = current.unlockHash ∧
  finalRev.unlockConditionsHash = current.unlockConditionsHash ∧
  finalRev.validProofOutputs.length ≤ current.validProofOutputs.length ∧
  ∀ i, i < finalRev.validProofOutputs.length →
    (outAt finalRev.validProofOutputs i).value = (outAt current.validProofOutputs i).value ∧
    (outAt finalRev.validProofOutputs i).address = (outAt current.validProofOutputs i).address ∧
    outAt finalRev.missedProofOutputs i = outAt finalRev.validProofOutputs i

/-- The acceptance condition claimed by the specification for
`validate_clearing_revision`: scalar fields unchanged, sentinel revision
number, values of the final valid outputs matching the current ones, and
final missed outputs equal to final valid outputs - with nothing said
about addresses relative to the current revision. -/
def clearingSpecAccepts (current finalRev : Rev) : Prop :=
  current.filesize = finalRev.filesize ∧
  current.fileMerkleRoot = finalRev.fileMerkleRoot ∧
  current.windowStart = finalRev.windowStart ∧
  current.windowEnd = finalRev.windowEnd ∧
  finalRev.unlockHash = current.unlockHash ∧
  finalRev.unlockConditionsHash = current.unlockConditionsHash ∧
  finalRev.revisionNumber = maxRevisionNumber ∧
  finalRev.validProofOutputs.length = current.validProofOutputs.length ∧
  finalRev.missedProofOutputs.length = current.missedProofOutputs.length ∧
  ∀ i, i < current.validProofOutputs.length →
    (outAt finalRev.validProofOutputs i).value = (outAt current.validProofOutputs i).value ∧
    outAt finalRev.missedProofOutputs i = outAt finalRev.validProofOutputs i

/-- Claim C3 (amended): `ValidateClearingRevision` accepts
`(current, final)` exactly when filesize, file Merkle root, window start,
window end, unlock hash and unlock conditions are unchanged, the final
revision has as many valid as missed outputs (no comparison with the
current list lengths), `final.revisionNumber` is the `u64::MAX` sentinel,
and at each index of the final valid list the value *and address* agree
with the current valid output while the final missed output equals the
final valid output. -/
theorem ValidateClearingRevision_ok_iff (current finalRev : Rev) :
    ValidateClearingRevision current finalRev = VResult.ok ↔
      clearingCodeCond current finalRev := by
  unfold ValidateClearingRevision clearingCodeCond
  split_ifs with g1 g2 g3 g4 g5 g6 g7 g8
  · exact iff_of_false (by simp) (by tauto)
  · exact iff_of_false (by simp) (by tauto)
  · exact iff_of_false (by simp) (by tauto)
  · exact iff_of_false (by simp) (by tauto)
  · exact iff_of_false (by simp) (by tauto)
  · exact iff_of_false (by simp) (by tauto)
  · exact iff_of_false (by simp) (by tauto)
  · exact iff_of_false (by simp) (by tauto)
  · rw [not_not] at g1 g2 g3 g4 g5 g6 g7 g8
    rw [clearingLoop_ok_iff]
    constructor
    · rintro ⟨k1, k2, k3⟩
      exact ⟨g1, g2, g3, g4, g5, g6, g7, g8, k2, k3⟩
    · rintro ⟨-, -, -, -, -, -, -, -, c9, c10⟩
      exact ⟨by omega, c9, c10⟩

theorem div64rem_eq {hi lo y : Nat} (hy : 0 < y) (hhi : hi < y) :
    div64rem hi lo y = some ((hi * 2 ^ 64 + lo) % y) := by
  unfold div64rem
  rw [if_neg (by omega)]

theorem modStep (a b B n : Nat) : (a % n * B + b) % n = (a * B + b) % n :=
  Nat.ModEq.add_right b (Nat.ModEq.mul_right B (Nat.mod_modEq a n))

theorem numSegments_pos {S : Nat} (h : 0 < S) : 0 < numSegments S := by
  unfold numSegments leafSize
  split_ifs with hmod <;> omega

theorem storageProofSegment_formula (blake : List Nat → List Nat) (bid fcid : List Nat)
    (S : Nat) (hS : 0 < S) :
    storageProofSegment blake bid fcid S =
      some (beInt256 (blake (bid ++ fcid)) % numSegments S) := by
  have hn : 0 < numSegments S := numSegments_pos hS
  simp only [storageProofSegment]
  rw [if_neg (by omega)]
  rw [div64rem_eq hn hn, Option.some_bind]
  rw [div64rem_eq hn (Nat.mod_lt _ hn), Option.some_bind, modStep]
  rw [div64rem_eq hn (Nat.mod_lt _ hn), Option.some_bind, modStep]
  rw [div64rem_eq hn (Nat.mod_lt _ hn), modStep]
  simp only [beInt256, Nat.zero_mul, Nat.zero_add]

theorem rootsOf_cons (s : Option Nat) (rest : List (Option Nat)) :
    rootsOf (s :: rest) = s.toList ++ rootsOf rest := by
  cases s <;> simp [rootsOf, Option.toList]

theorem coeList_append (s t : List Nat) : (↑(s ++ t) : Multiset Nat) = ↑s + ↑t :=
  (Multiset.coe_add s t).symm

theorem rootsOf_set (l : List (Option Nat)) (i : Nat) (v w : Option Nat)
    (h : l.get? i = some w) :
    (↑(rootsOf (l.set i v)) + ↑w.toList : Multiset Nat) = ↑(rootsOf l) + ↑v.toList := by
  induction l generalizing i with
  | nil => simp at h
  | cons s rest ih =>
    cases i with
    | zero =>
      simp only [List.get?] at h
      injection h with h
      subst h
      simp only [List.set, rootsOf_cons, coeList_append]
      abel
    | succ j =>
      simp only [List.get?] at h
      simp only [List.set, rootsOf_cons, coeList_append]
      rw [add_assoc, add_assoc, ih j h]

theorem rootsOf_set_length (l : List (Option Nat)) (i : Nat) (v w : Option Nat)
    (h : l.get? i = some w) :
    (rootsOf (l.set i v)).length + w.toList.length
      = (rootsOf l).length + v.toList.length := by
  have hc := congrArg Multiset.card (rootsOf_set l i v w h)
  simpa using hc

theorem firstNoneIdx_get : ∀ (l : List (Option Nat)) (i : Nat),
    firstNoneIdx l = some i → l.get? i = some none := by
  intro l
  induction l with
  | nil => intro i h; simp [firstNoneIdx] at h
  | cons s rest ih =>
    intro i h
    cases s with
    | none =>
      simp only [firstNoneIdx] at h
      injection h with h
      subst h
      rfl
    | some a =>
      simp only [firstNoneIdx, Option.map_eq_some'] at h
      obtain ⟨j, hj, rfl⟩ := h
      exact ih j hj

theorem firstNoneIdxBelow_get : ∀ (l : List (Option Nat)) (b i : Nat),
    firstNoneIdxBelow l b = some i → l.get? i = some none ∧ i < b := by
  intro l
  induction l with
  | nil => intro b i h; simp [firstNoneIdxBelow] at h
  | cons s rest ih =>
    intro b i h
    cases b with
    | zero => simp [firstNoneIdxBelow] at h
    | succ b =>
      cases s with
      | none =>
        simp only [firstNoneIdxBelow] at h
        injection h with h
        subst h
        exact ⟨rfl, Nat.succ_pos b⟩
      | some a =>
        simp only [firstNoneIdxBelow, Option.map_eq_some'] at h
        obtain ⟨j, hj, rfl⟩ := h
        obtain ⟨h1, h2⟩ := ih b j hj
        exact ⟨h1, by omega⟩

theorem findRootIdx_set : ∀ (l : List (Option Nat)) (root i : Nat),
    findRootIdx l root = none → firstNoneIdx l = some i →
    findRootIdx (l.set i (some root)) root = some i := by
  intro l
  induction l with
  | nil => intro root i _ h; simp [firstNoneIdx] at h
  | cons s rest ih =>
    intro root i hn hf
    have hs : s ≠ some root := by
      intro hcon
      simp [findRootIdx, hcon] at hn
    have hrest : findRootIdx rest root = none := by
      simp only [findRootIdx, if_neg hs, Option.map_eq_none'] at hn
      exact hn
    cases s with
    | none =>
      simp only [firstNoneIdx] at hf
      injection hf with hf
      subst hf
      simp [List.set, findRootIdx]
    | some a =>
      simp only [firstNoneIdx, Option.map_eq_some'] at hf
      obtain ⟨j, hj, rfl⟩ := hf
      simp only [List.set, findRootIdx, if_neg hs]
      rw [ih root j hrest hj]
      rfl

theorem findRoot_cons_none {v : Volume} {vs : List Volume} {root : Nat}
    (h : findRoot (v :: vs) root = none) :
    findRootIdx v.slots root = none ∧ findRoot vs root = none := by
  simp only [findRoot] at h
  cases hvi : findRootIdx v.slots root with
  | some i => rw [hvi] at h; exact Option.noConfusion h
  | none => rw [hvi] at h; exact ⟨rfl, h⟩

theorem placeRoot_spec : ∀ (vols : List Volume) (root : Nat)
    (vols2 : List Volume) (vid idx : Nat),
    findRoot vols root = none →
    placeRoot vols root = some (vols2, vid, idx) →
    findRoot vols2 root = some (vid, idx) ∧
      (rootsL vols2).length = (rootsL vols).length + 1 := by
  intro vols
  induction vols with
  | nil => intro root vols2 vid idx _ hp; simp [placeRoot] at hp
  | cons v vs ih =>
    intro root vols2 vid idx hn hp
    obtain ⟨hv, hvs⟩ := findRoot_cons_none hn
    simp only [placeRoot] at hp
    by_cases hw : v.available && !v.readOnly
    · rw [if_pos hw] at hp
      cases hfree : firstNoneIdx v.slots with
      | some i =>
        rw [hfree] at hp
        simp only [Option.some.injEq, Prod.mk.injEq] at hp
        obtain ⟨hp1, hp2, hp3⟩ := hp
        subst hp1
        subst hp2
        subst hp3
        constructor
        · simp only [findRoot]
          rw [findRootIdx_set v.slots root i hv hfree]
        · have hslot := firstNoneIdx_get v.slots i hfree
          have hlen := rootsOf_set_length v.slots i (some root) none hslot
          simp only [Option.toList, List.length_nil, List.length_cons] at hlen
          simp only [rootsL, List.length_append]
          omega
      | none =>
        rw [hfree] at hp
        rw [Option.map_eq_some'] at hp
        obtain ⟨⟨vs2, vid2, idx2⟩, hrec, hp⟩ := hp
        simp only [Prod.mk.injEq] at hp
        obtain ⟨hp1, hp2, hp3⟩ := hp
        subst hp1
        subst hp2
        subst hp3
        obtain ⟨hf, hl⟩ := ih root vs2 vid2 idx2 hvs hrec
        refine ⟨?_, ?_⟩
        · simp only [findRoot, hv]
          exact hf
        · simp only [rootsL, List.length_append]
          omega
    · rw [if_neg hw] at hp
      rw [Option.map_eq_some'] at hp
      obtain ⟨⟨vs2, vid2, idx2⟩, hrec, hp⟩ := hp
      simp only [Prod.mk.injEq] at hp
      obtain ⟨hp1, hp2, hp3⟩ := hp
      subst hp1
      subst hp2
      subst hp3
      obtain ⟨hf, hl⟩ := ih root vs2 vid2 idx2 hvs hrec
      refine ⟨?_, ?_⟩
      · simp only [findRoot, hv]
        exact hf
      · simp only [rootsL, List.length_append]
        omega

theorem storeSector_spec (st : StoreState) (root : Nat) (st2 : StoreState)
    (loc : Nat × Nat) (ex : Bool)
    (h : storeSector st root = Except.ok (st2, loc, ex)) :
    storeSector st2 root = Except.ok (st2, loc, true) ∧
    (ex = true → st2 = st) ∧
    (ex = false → totalUsed st2 = totalUsed st + 1) := by
  unfold storeSector at h
  cases hfr : findRoot st.volumes root with
  | some l =>
    rw [hfr] at h
    simp only [Except.ok.injEq, Prod.mk.injEq] at h
    obtain ⟨h1, h2, h3⟩ := h
    subst h1
    subst h2
    subst h3
    refine ⟨?_, fun _ => rfl, fun hfalse => by simp at hfalse⟩
    unfold storeSector
    rw [hfr]
  | none =>
    rw [hfr] at h
    cases hp : placeRoot st.volumes root with
    | none => rw [hp] at h; exact Except.noConfusion h
    | some r =>
      obtain ⟨vols, vid, idx⟩ := r
      rw [hp] at h
      simp only [Except.ok.injEq, Prod.mk.injEq] at h
      obtain ⟨h1, h2, h3⟩ := h
      subst h1
      subst h2
      subst h3
      obtain ⟨hf, hl⟩ := placeRoot_spec st.volumes root vols vid idx hfr hp
      refine ⟨?_, fun htrue => by simp at htrue, fun _ => ?_⟩
      · simp only [storeSector, hf]
      · unfold totalUsed
        exact hl

theorem getq_set_ne : ∀ (l : List (Option Nat)) (i j : Nat) (v : Option Nat),
    i ≠ j → (l.set i v).get? j = l.get? j := by
  intro l
  induction l with
  | nil => intro i j v _; rfl
  | cons s rest ih =>
    intro i j v hne
    cases i with
    | zero =>
      cases j with
      | zero => exact absurd rfl hne
      | succ j2 => rfl
    | succ i2 =>
      cases j with
      | zero => rfl
      | succ j2 => exact ih i2 j2 v (by omega)

theorem rootsL_setSlotPos : ∀ (vols : List Volume) (p i : Nat) (v w : Option Nat),
    getSlotPos vols p i = some w →
    (↑(rootsL (setSlotPos vols p i v)) + ↑w.toList : Multiset Nat)
      = ↑(rootsL vols) + ↑v.toList := by
  intro vols
  induction vols with
  | nil => intro p i v w h; simp [getSlotPos] at h
  | cons vol vs ih =>
    intro p i v w h
    cases p with
    | zero =>
      simp only [getSlotPos] at h
      simp only [setSlotPos, rootsL, coeList_append]
      have hx := rootsOf_set vol.slots i v w h
      rw [add_right_comm, hx, add_right_comm]
    | succ q =>
      simp only [getSlotPos] at h
      simp only [setSlotPos, rootsL, coeList_append]
      rw [add_assoc, ih q i v w h, ← add_assoc]

theorem getSlotPos_set_other : ∀ (vols : List Volume) (p i q j : Nat) (v : Option Nat),
    p ≠ q ∨ i ≠ j →
    getSlotPos (setSlotPos vols p i v) q j = getSlotPos vols q j := by
  intro vols
  induction vols with
  | nil => intro p i q j v _; rfl
  | cons vol vs ih =>
    intro p i q j v hne
    cases p with
    | zero =>
      cases q with
      | zero =>
        have hij : i ≠ j := by
          rcases hne with h | h
          · exact absurd rfl h
          · exact h
        simp only [setSlotPos, getSlotPos]
        exact getq_set_ne vol.slots i j v hij
      | succ q2 => rfl
    | succ p2 =>
      cases q with
      | zero => rfl
      | succ q2 =>
        simp only [setSlotPos, getSlotPos]
        refine ih p2 i q2 j v ?_
        rcases hne with h | h
        · exact Or.inl (by omega)
        · exact Or.inr h

theorem freeDestSlot_spec : ∀ (vols : List Volume) (srcPos : Option Nat) (below p i : Nat),
    freeDestSlot vols srcPos below = some (p, i) →
    getSlotPos vols p i = some none ∧ (srcPos = some p → i < below) := by
  intro vols
  induction vols with
  | nil => intro srcPos below p i h; simp [freeDestSlot] at h
  | cons v vs ih =>
    intro srcPos below p i h
    simp only [freeDestSlot] at h
    by_cases hw : v.available && !v.readOnly
    · rw [if_pos hw] at h
      by_cases hsrc : srcPos = some 0
      · rw [if_pos hsrc] at h
        cases hc : firstNoneIdxBelow v.slots below with
        | some j =>
          rw [hc] at h
          simp only [Option.some.injEq, Prod.mk.injEq] at h
          obtain ⟨h1, h2⟩ := h
          subst h1
          subst h2
          obtain ⟨hg, hb⟩ := firstNoneIdxBelow_get v.slots below j hc
          exact ⟨hg, fun _ => hb⟩
        | none =>
          rw [hc] at h
          rw [Option.map_eq_some'] at h
          obtain ⟨⟨p2, i2⟩, hrec, hpe⟩ := h
          simp only [Prod.mk.injEq] at hpe
          obtain ⟨h1, h2⟩ := hpe
          subst h1
          subst h2
          obtain ⟨hg, hb⟩ := ih (decPos srcPos) below p2 i2 hrec
          refine ⟨hg, fun hs => ?_⟩
          rw [hsrc] at hs
          exact absurd hs (by simp)
      · rw [if_neg hsrc] at h
        cases hc : firstNoneIdx v.slots with
        | some j =>
          rw [hc] at h
          simp only [Option.some.injEq, Prod.mk.injEq] at h
          obtain ⟨h1, h2⟩ := h
          subst h1
          subst h2
          refine ⟨firstNoneIdx_get v.slots j hc, fun hs => absurd hs hsrc⟩
        | none =>
          rw [hc] at h
          rw [Option.map_eq_some'] at h
          obtain ⟨⟨p2, i2⟩, hrec, hpe⟩ := h
          simp only [Prod.mk.injEq] at hpe
          obtain ⟨h1, h2⟩ := hpe
          subst h1
          subst h2
          obtain ⟨hg, hb⟩ := ih (decPos srcPos) below p2 i2 hrec
          refine ⟨hg, fun hs => hb ?_⟩
          cases srcPos with
          | none => exact Option.noConfusion hs
          | some n =>
            injection hs with hs
            subst hs
            rfl
    · rw [if_neg hw] at h
      rw [Option.map_eq_some'] at h
      obtain ⟨⟨p2, i2⟩, hrec, hpe⟩ := h
      simp only [Prod.mk.injEq] at hpe
      obtain ⟨h1, h2⟩ := hpe
      subst h1
      subst h2
      obtain ⟨hg, hb⟩ := ih (decPos srcPos) below p2 i2 hrec
      refine ⟨hg, fun hs => hb ?_⟩
      cases srcPos with
      | none => exact Option.noConfusion hs
      | some n =>
        injection hs with hs
        subst hs
        rfl

theorem migrateLoop_roots : ∀ (pending : List Nat) (vols : List Volume) (srcPos below : Nat),
    (∀ j ∈ pending, below ≤ j) →
    (↑(rootsL (migrateLoop vols srcPos below pending).1) : Multiset Nat) = ↑(rootsL vols) := by
  intro pending
  induction pending with
  | nil => intro vols srcPos below _; rfl
  | cons idx rest ih =>
    intro vols srcPos below hb
    have hbrest : ∀ j ∈ rest, below ≤ j := fun j hj => hb j (List.mem_cons_of_mem idx hj)
    have hbidx : below ≤ idx := hb idx (List.mem_cons_self idx rest)
    simp only [migrateLoop]
    cases hg : getSlotPos vols srcPos idx with
    | none => exact ih vols srcPos below hbrest
    | some s =>
      cases s with
      | none => exact ih vols srcPos below hbrest
      | some root =>
        cases hd : freeDestSlot vols (some srcPos) below with
        | none => rfl
        | some d =>
          obtain ⟨dp, di⟩ := d
          obtain ⟨hslot, hbel⟩ := freeDestSlot_spec vols (some srcPos) below dp di hd
          have hne : srcPos ≠ dp ∨ idx ≠ di := by
            by_cases hpe : srcPos = dp
            · right
              have : di < below := hbel (by rw [hpe])
              omega
            · exact Or.inl hpe
          have hslot1 : getSlotPos (setSlotPos vols srcPos idx none) dp di = some none := by
            rw [getSlotPos_set_other vols srcPos idx dp di none hne]
            exact hslot
          have e1 := rootsL_setSlotPos vols srcPos idx none (some root) hg
          have e2 := rootsL_setSlotPos (setSlotPos vols srcPos idx none) dp di (some root) none hslot1
          rw [ih _ srcPos below hbrest]
          simp only [Option.toList] at e1 e2
          simp only [Multiset.coe_nil, add_zero] at e1 e2
          rw [e2, e1]

/-- Claim C8 (confirmed, spec-modelled): `migrate_sectors` preserves the
multiset of stored sector roots in every outcome, including the partial
completion that reports `NotEnoughStorage`. -/
theorem migrateSectors_preserves_roots (st : StoreState) (vid below : Nat) :
    (↑(rootsL (migrateSectors st vid below).1.volumes) : Multiset Nat)
      = ↑(rootsL st.volumes) := by
  unfold migrateSectors
  split
  · rfl
  · split
    · rfl
    · dsimp only
      exact migrateLoop_roots _ st.volumes _ below (fun j hj => by
        rw [List.mem_filter, Bool.and_eq_true] at hj
        exact of_decide_eq_true hj.2.1)

/-- Claim C9 (confirmed, spec-modelled): removing a volume that holds at
least one occupied slot with `force = false` fails with `VolumeNotEmpty`
and leaves the store unchanged; in particular the non-forced removal
never succeeds on a non-empty volume. -/
theorem removeVolume_nonempty_blocked (st : StoreState) (vid : Nat) (v : Volume)
    (hfind : findVolByVid st.volumes vid = some v) (hused : 0 < usedSectors v) :
    removeVolume st vid false = (st, some StoreError.volumeNotEmpty) ∧
    (removeVolume st vid false).2 ≠ none := by
  have hmain : removeVolume st vid false = (st, some StoreError.volumeNotEmpty) := by
    unfold removeVolume
    rw [hfind]
    dsimp only
    rw [if_pos ⟨rfl, by omega⟩]
  refine ⟨hmain, ?_⟩
  rw [hmain]
  simp

/-- Claim C1 (amended): for every pair accepted by `validateStdRevision`,
the proposed valid-output sum equals the current valid-output sum, and
the proposed missed-output sum also equals the current *valid*-output
sum - the code never reads the current missed-output sum. -/
theorem validateStdRevision_ok_sums (cur rev : Rev)
    (h : validateStdRevision cur rev = VResult.ok) :
    sumValues rev.validProofOutputs = sumValues cur.validProofOutputs ∧
    sumValues rev.missedProofOutputs = sumValues cur.validProofOutputs :=
  ⟨(validateStd_ok_inv cur rev h).1, (validateStd_ok_inv cur rev h).2.1⟩

/-- Claim C1 counterexample: `validateStdRevision` accepts `(c1cur, c1rev)`
although the proposed missed-output sum (10) differs from the current
missed-output sum (5). -/
theorem validateStdRevision_missed_sum_not_preserved :
    validateStdRevision c1cur c1rev = VResult.ok ∧
    sumValues c1rev.missedProofOutputs ≠ sumValues c1cur.missedProofOutputs := by
  decide

/-- Claim C1 witness: the amended sum facts at the accepted pair
`(c1cur, c1rev)`. -/
theorem validateStdRevision_ok_sums_witness :
    validateStdRevision c1cur c1rev = VResult.ok ∧
    (sumValues c1rev.validProofOutputs = sumValues c1cur.validProofOutputs ∧
      sumValues c1rev.missedProofOutputs = sumValues c1cur.validProofOutputs) :=
  ⟨by decide, validateStdRevision_ok_sums c1cur c1rev (by decide)⟩

/-- Claim C2 (code bug evidence): `ValidateContractRenewal` accepts a
renewal whose host missed payout (10) exceeds its host valid payout (5);
the comparison at the `"host valid payout must be greater than host
missed payout"` check is inverted relative to its own error message, the
spec, and the later `missed ≥ valid − host_burn` check. -/
theorem ValidateContractRenewal_accepts_excess_missed :
    ValidateContractRenewal c2existing c2renewal 0 0 0 0 0 c2settings = VResult.ok ∧
    (outAt c2renewal.validProofOutputs 1).value
      < (outAt c2renewal.missedProofOutputs 1).value := by
  decide

/-- Claim C3 counterexample: the pair `(c3cur, c3fin)` satisfies every
condition the claim lists - scalar fields unchanged, sentinel revision
number, final valid values equal to current valid values, final missed
outputs equal to final valid outputs - yet `ValidateClearingRevision`
rejects it, because the final output address moved from 0 to 1. -/
theorem ValidateClearingRevision_rejects_spec_accepted :
    clearingSpecAccepts c3cur c3fin ∧
    ValidateClearingRevision c3cur c3fin ≠ VResult.ok := by
  refine ⟨?_, by decide⟩
  unfold clearingSpecAccepts
  decide

/-- Claim C4 (amended): a proposal carrying the `u64::MAX` revision
number is rejected by `validateStdRevision` only when the current
revision number is already `u64::MAX`; with any lower current revision
number the standard predicate can accept the sentinel (see the
counterexample). -/
theorem validateStdRevision_max_only_rejected_at_max (cur rev : Rev)
    (h1 : rev.revisionNumber = maxRevisionNumber)
    (h2 : cur.revisionNumber = maxRevisionNumber) :
    validateStdRevision cur rev ≠ VResult.ok := by
  intro hok
  have hlt := (validateStd_ok_inv cur rev hok).2.2.1
  rw [h1, h2] at hlt
  exact absurd hlt (lt_irrefl _)

/-- Claim C4 counterexample: `validateStdRevision` - and with it
`ValidatePaymentRevision` - accepts a proposal whose revision number is
the `u64::MAX` clearing sentinel when the current revision number is 0. -/
theorem validateStdRevision_accepts_max_sentinel :
    validateStdRevision c4cur c4rev = VResult.ok ∧
    ValidatePaymentRevision c4cur c4rev 0 = VResult.ok ∧
    c4rev.revisionNumber = maxRevisionNumber := by
  decide

/-- Claim C4 witness: at a pair already carrying the sentinel on both
sides, the standard predicate does not accept. -/
theorem validateStdRevision_max_only_rejected_at_max_witness :
    c4wrev.revisionNumber = maxRevisionNumber ∧
    c4wcur.revisionNumber = maxRevisionNumber ∧
    validateStdRevision c4wcur c4wrev ≠ VResult.ok :=
  ⟨by decide, by decide,
    validateStdRevision_max_only_rejected_at_max c4wcur c4wrev (by decide) (by decide)⟩

/-- Claim C6 (confirmed): `storageProofSegment` returns 0 for an empty
file, and for a non-empty file it returns the 256-bit digest of
`bid ∥ fcid`, read big-endian and reduced by the four `Div64` steps,
modulo `ceil(filesize / 64)`; the result is strictly below the segment
count and no `Div64` step can panic. -/
theorem storageProofSegment_spec (blake : List Nat → List Nat) (bid fcid : List Nat)
    (S : Nat) (hS : 0 < S) :
    storageProofSegment blake bid fcid 0 = some 0 ∧
    storageProofSegment blake bid fcid S
      = some (beInt256 (blake (bid ++ fcid)) % numSegments S) ∧
    beInt256 (blake (bid ++ fcid)) % numSegments S < numSegments S :=
  ⟨by simp [storageProofSegment], storageProofSegment_formula blake bid fcid S hS,
    Nat.mod_lt _ (numSegments_pos hS)⟩

/-- Claim C6 witness: the segment formula evaluated with an all-zero
digest and a one-sector file. -/
theorem storageProofSegment_spec_witness :
    0 < 64 ∧
    (storageProofSegment constDigest [] [] 0 = some 0 ∧
      storageProofSegment constDigest [] [] 64
        = some (beInt256 (constDigest ([] ++ [])) % numSegments 64) ∧
      beInt256 (constDigest ([] ++ [])) % numSegments 64 < numSegments 64) :=
  ⟨by decide, storageProofSegment_spec constDigest [] [] 64 (by decide)⟩

/-- Claim C7 (confirmed, spec-modelled): `store_sector` is idempotent -
after any successful store of `root` at location `loc`, storing `root`
again returns the same location with `exists = true`, allocates nothing
(the state is returned unchanged), and `used_sectors` was incremented
only by a first store that found the root absent. -/
theorem storeSector_idempotent (st : StoreState) (root : Nat) (st2 : StoreState)
    (loc : Nat × Nat) (ex : Bool)
    (h : storeSector st root = Except.ok (st2, loc, ex)) :
    storeSector st2 root = Except.ok (st2, loc, true) ∧
    totalUsed st2 = totalUsed st + (if ex then 0 else 1) := by
  obtain ⟨ha, hb, hc⟩ := storeSector_spec st root st2 loc ex h
  refine ⟨ha, ?_⟩
  cases ex with
  | false => simpa using hc rfl
  | true =>
    rw [hb rfl]
    simp

/-- Claim C7 witness: storing root 7 into a one-slot store and storing
it again. -/
theorem storeSector_idempotent_witness :
    storeSector w7st 7 = Except.ok (w7st1, (1, 0), false) ∧
    (storeSector w7st1 7 = Except.ok (w7st1, (1, 0), true) ∧
      totalUsed w7st1 = totalUsed w7st + (if false then 0 else 1)) :=
  ⟨rfl, storeSector_idempotent w7st 7 w7st1 (1, 0) false rfl⟩

/-- Claim C9 witness: removing the volume holding root 4 without force
fails with `VolumeNotEmpty` and changes nothing. -/
theorem removeVolume_nonempty_blocked_witness :
    findVolByVid r9st.volumes 1 = some r9vol ∧
    0 < usedSectors r9vol ∧
    (removeVolume r9st 1 false = (r9st, some StoreError.volumeNotEmpty) ∧
      (removeVolume r9st 1 false).2 ≠ none) :=
  ⟨by decide, by decide,
    removeVolume_nonempty_blocked r9st 1 r9vol (by decide) (by decide)⟩

/-- Claim C10 counterexample: with a proposed valid list longer than the
current one, the address loop of `validateStdRevision` indexes
`current.ValidProofOutputs` out of range - the function does not return
nil-or-error on every input. -/
theorem validateStdRevision_oob_crash :
    validateStdRevision c10cur c10rev = VResult.crash := by
  decide

/-- Claim C10 witness: the bounded-totality statement applied at a
well-shaped pair. -/
theorem validateStdRevision_total_on_bounded_witness :
    c10wrev.validProofOutputs.length ≤ c10wcur.validProofOutputs.length ∧
    c10wrev.missedProofOutputs.length ≤ c10wcur.missedProofOutputs.length ∧
    0 < c10wcur.validProofOutputs.length ∧
    0 < c10wcur.missedProofOutputs.length ∧
    sumValues c10wcur.validProofOutputs < 2 ^ 128 ∧
    sumValues c10wrev.validProofOutputs < 2 ^ 128 ∧
    sumValues c10wrev.missedProofOutputs < 2 ^ 128 ∧
    validateStdRevision c10wcur c10wrev ≠ VResult.crash :=
  ⟨by decide, by decide, by decide, by decide, by decide, by decide, by decide,
    validateStdRevision_total_on_bounded c10wcur c10wrev
      (by decide) (by decide) (by decide) (by decide) (by decide) (by decide) (by decide)⟩
